import Mathlib

/-!
Verification development for `scripts/cadnano_diff.py`.

The comparison engine of the repository is embedded shallowly:

* `Value` models the in-memory Python values the engine manipulates
  (JSON scalars, lists, dicts) together with tuples (produced by
  canonicalization) and an unhashable scalar (`badV`, standing for any
  object on which Python's `hash` raises `TypeError`).
* `list_to_tups` embeds the function of the same name (source lines
  101-116).  Note that the second `isinstance(obj, list)` branch of the
  source (lines 105-111) is dead code — its condition duplicates the
  first branch — so it contributes nothing to the embedding.
* `diff_designs` embeds the function of the same name (source lines
  119-170).  Printing is modelled by returning the list of emitted
  `Line`s; an uncaught Python exception is modelled by `Option PyErr`:
  the lines printed before the exception, paired with the error.
-/

/-- A Python value as handled by the diff engine: JSON scalars
(`intV`, `strV`), lists, dicts (association lists; genuine Python dicts
have pairwise-distinct keys), tuples (as produced by canonicalization),
and `badV`, an unhashable scalar object. -/
inductive Value where
  | intV : Int → Value
  | strV : String → Value
  | badV : Nat → Value
  | listV : List Value → Value
  | tupV : List Value → Value
  | dictV : List (String × Value) → Value

mutual

/-- Boolean structural equality on `Value` (used to build `DecidableEq`). -/
def beqV : Value → Value → Bool
  | .intV a, .intV b => a == b
  | .strV a, .strV b => a == b
  | .badV a, .badV b => a == b
  | .listV xs, .listV ys => beqL xs ys
  | .tupV xs, .tupV ys => beqL xs ys
  | .dictV xs, .dictV ys => beqKV xs ys
  | _, _ => false

/-- Pointwise `beqV` on lists of values. -/
def beqL : List Value → List Value → Bool
  | [], [] => true
  | x :: xs, y :: ys => beqV x y && beqL xs ys
  | _, _ => false

/-- Pointwise equality on association lists (string keys, `Value` values). -/
def beqKV : List (String × Value) → List (String × Value) → Bool
  | [], [] => true
  | (k, v) :: xs, (k', v') :: ys => k == k' && beqV v v' && beqKV xs ys
  | _, _ => false

end

/-- Induction principle for the nested inductive `Value`, giving
membership-based induction hypotheses for the list-shaped constructors. -/
def Value.inductionOn {P : Value → Prop}
    (hint : ∀ n, P (.intV n)) (hstr : ∀ s, P (.strV s)) (hbad : ∀ n, P (.badV n))
    (hlist : ∀ xs, (∀ x ∈ xs, P x) → P (.listV xs))
    (htup : ∀ xs, (∀ x ∈ xs, P x) → P (.tupV xs))
    (hdict : ∀ kvs, (∀ p ∈ kvs, P (Prod.snd p)) → P (.dictV kvs)) :
    ∀ v, P v
  | .intV n => hint n
  | .strV s => hstr s
  | .badV n => hbad n
  | .listV xs => hlist xs (fun x hx =>
      have : sizeOf x < 1 + sizeOf xs := by
        have := List.sizeOf_lt_of_mem hx
        omega
      Value.inductionOn hint hstr hbad hlist htup hdict x)
  | .tupV xs => htup xs (fun x hx =>
      have : sizeOf x < 1 + sizeOf xs := by
        have := List.sizeOf_lt_of_mem hx
        omega
      Value.inductionOn hint hstr hbad hlist htup hdict x)
  | .dictV kvs => hdict kvs (fun p hp =>
      have : sizeOf p.2 < 1 + sizeOf kvs := by
        have h1 := List.sizeOf_lt_of_mem hp
        have h2 : sizeOf p = 1 + sizeOf p.1 + sizeOf p.2 := by
          cases p; simp
        omega
      Value.inductionOn hint hstr hbad hlist htup hdict p.2)
termination_by v => sizeOf v

theorem beqV_iff : ∀ a b : Value, beqV a b = true ↔ a = b := by
  have auxL : ∀ (xs : List Value), (∀ x ∈ xs, ∀ b, beqV x b = true ↔ x = b) →
      ∀ ys, beqL xs ys = true ↔ xs = ys := by
    intro xs
    induction xs with
    | nil => intro _ ys; cases ys <;> simp [beqL]
    | cons x xs ih =>
      intro h ys
      cases ys with
      | nil => simp [beqL]
      | cons y ys =>
        simp only [beqL, Bool.and_eq_true, List.cons.injEq]
        rw [h x (by simp), ih (fun z hz => h z (by simp [hz]))]
  have auxKV : ∀ (kvs : List (String × Value)),
      (∀ p ∈ kvs, ∀ b, beqV (Prod.snd p) b = true ↔ (Prod.snd p) = b) →
      ∀ ys, beqKV kvs ys = true ↔ kvs = ys := by
    intro kvs
    induction kvs with
    | nil => intro _ ys; cases ys <;> simp [beqKV]
    | cons p kvs ih =>
      intro h ys
      cases ys with
      | nil => cases p; simp [beqKV]
      | cons q ys =>
        obtain ⟨k, v⟩ := p
        obtain ⟨k', v'⟩ := q
        have h1 := h (k, v) (by simp)
        have h2 := ih (fun z hz => h z (by simp [hz]))
        simp only [beqKV, Bool.and_eq_true, List.cons.injEq, Prod.mk.injEq,
          beq_iff_eq, h1, h2]
  intro a
  induction a using Value.inductionOn with
  | hint n => intro b; cases b <;> simp [beqV]
  | hstr s => intro b; cases b <;> simp [beqV]
  | hbad n => intro b; cases b <;> simp [beqV]
  | hlist xs ih =>
    intro b; cases b <;> simp only [beqV] <;> try simp
    exact auxL xs ih _
  | htup xs ih =>
    intro b; cases b <;> simp only [beqV] <;> try simp
    exact auxL xs ih _
  | hdict kvs ih =>
    intro b; cases b <;> simp only [beqV] <;> try simp
    exact auxKV kvs ih _

instance : DecidableEq Value := fun a b =>
  decidable_of_iff (beqV a b = true) (beqV_iff a b)

mutual

/-- Python hashability of a value: scalars other than `badV` hash, lists and
dicts raise `TypeError`, a tuple hashes exactly when all its elements do. -/
def hashableV : Value → Bool
  | .intV _ => true
  | .strV _ => true
  | .badV _ => false
  | .listV _ => false
  | .dictV _ => false
  | .tupV xs => hashableL xs

/-- All values of a list are hashable. -/
def hashableL : List Value → Bool
  | [] => true
  | x :: xs => hashableV x && hashableL xs

end

mutual

/-- The value contains an unhashable scalar (`badV`) somewhere. -/
def hasBadV : Value → Bool
  | .intV _ => false
  | .strV _ => false
  | .badV _ => true
  | .listV xs => hasBadL xs
  | .tupV xs => hasBadL xs
  | .dictV kvs => hasBadKV kvs

/-- Some value of the list contains an unhashable scalar. -/
def hasBadL : List Value → Bool
  | [] => false
  | x :: xs => hasBadV x || hasBadL xs

/-- Some mapped value of the association list contains an unhashable scalar. -/
def hasBadKV : List (String × Value) → Bool
  | [] => false
  | p :: rest => hasBadV p.2 || hasBadKV rest

end

mutual

/-- The value is built from scalars, lists and dicts only (no tuples):
the shape of freshly parsed (e.g. JSON-loaded) input documents. -/
def tupleFreeV : Value → Bool
  | .intV _ => true
  | .strV _ => true
  | .badV _ => true
  | .listV xs => tupleFreeL xs
  | .tupV _ => false
  | .dictV kvs => tupleFreeKV kvs

/-- All values of the list are tuple-free. -/
def tupleFreeL : List Value → Bool
  | [] => true
  | x :: xs => tupleFreeV x && tupleFreeL xs

/-- All mapped values of the association list are tuple-free. -/
def tupleFreeKV : List (String × Value) → Bool
  | [] => true
  | p :: rest => tupleFreeV p.2 && tupleFreeKV rest

end

/-- Uncaught Python exceptions the engine can raise. -/
inductive PyErr where
  | typeError
  | valueError
  | attributeError
  | indexError
deriving DecidableEq

/-- Embedding of `sorted(obj.items())` (source line 113).  Python sorts the
`(key, value)` pairs lexicographically; since the keys of a genuine dict are
pairwise distinct, the values are never compared and this is a stable sort
by key, here realised by insertion sort on the key. -/
def sortKVs (kvs : List (String × Value)) : List (String × Value) :=
  List.insertionSort (fun a b => a.1 ≤ b.1) kvs

/-- Auxiliary size lemma for the termination of the canonicalizer: sorting
an association list does not change its `sizeOf`. -/
theorem sortKVs_sizeOf (kvs : List (String × Value)) :
    sizeOf (sortKVs kvs) = sizeOf kvs :=
  List.Perm.sizeOf_eq_sizeOf (List.perm_insertionSort _ kvs)

mutual

/-- Embedding of `list_to_tups` (source lines 101-116): a list becomes the
tuple of its canonicalized elements; a dict becomes the tuple of its
`(key, canonicalized value)` pairs sorted by key; every other value is
handed to `hash` and returned unchanged — raising `TypeError` when it is
unhashable (modelled per constructor: `intV`/`strV` always hash, `badV`
never does, a tuple hashes exactly when its elements do).  The source's
second `isinstance(obj, list)` branch (lines 105-111) is unreachable and is
therefore absent. -/
def list_to_tups : Value → Except PyErr Value
  | .intV n => .ok (.intV n)
  | .strV s => .ok (.strV s)
  | .badV _ => .error .typeError
  | .tupV xs => if hashableL xs then .ok (.tupV xs) else .error .typeError
  | .listV xs =>
    match canonL xs with
    | .error e => .error e
    | .ok cs => .ok (.tupV cs)
  | .dictV kvs =>
    match canonKVs (sortKVs kvs) with
    | .error e => .error e
    | .ok cs => .ok (.tupV cs)
termination_by v => sizeOf v
decreasing_by
  · simp only [Value.listV.sizeOf_spec]
    omega
  · simp only [Value.dictV.sizeOf_spec, sortKVs_sizeOf]
    omega

/-- Canonicalize the elements of a list in order, propagating the first
error (the element-wise computation of `tuple(list_to_tups(e) for e in obj)`,
source line 104). -/
def canonL : List Value → Except PyErr (List Value)
  | [] => .ok []
  | x :: xs =>
    match list_to_tups x with
    | .error e => .error e
    | .ok c =>
      match canonL xs with
      | .error e => .error e
      | .ok cs => .ok (c :: cs)
termination_by xs => sizeOf xs
decreasing_by
  all_goals simp only [List.cons.sizeOf_spec]
  all_goals omega

/-- Canonicalize the values of a (sorted) association list in order, turning
each entry into the pair-tuple `(k, list_to_tups v)` (source line 113). -/
def canonKVs : List (String × Value) → Except PyErr (List Value)
  | [] => .ok []
  | (k, v) :: rest =>
    match list_to_tups v with
    | .error e => .error e
    | .ok c =>
      match canonKVs rest with
      | .error e => .error e
      | .ok cs => .ok (Value.tupV [Value.strV k, c] :: cs)
termination_by l => sizeOf l
decreasing_by
  all_goals simp only [List.cons.sizeOf_spec, Prod.mk.sizeOf_spec]
  all_goals omega

end

/-- First-match lookup of a key in an association list (the access `b[k]`
performed by Python's dict equality; genuine dicts have distinct keys, so
first match is the match). -/
def dlookup (k : String) : List (String × Value) → Option Value
  | [] => none
  | p :: rest => if p.1 = k then some p.2 else dlookup k rest

/-- A value found by `dlookup` is smaller than the association list. -/
theorem dlookup_sizeOf {k : String} :
    ∀ {l : List (String × Value)} {v : Value}, dlookup k l = some v →
      sizeOf v < sizeOf l := by
  intro l
  induction l with
  | nil => intro v h; simp [dlookup] at h
  | cons p rest ih =>
    intro v h
    simp only [dlookup] at h
    by_cases hk : p.1 = k
    · rw [if_pos hk] at h
      cases h
      have : sizeOf p = 1 + sizeOf p.1 + sizeOf p.2 := by cases p; simp
      simp only [List.cons.sizeOf_spec]
      omega
    · rw [if_neg hk] at h
      have := ih h
      simp only [List.cons.sizeOf_spec]
      omega

mutual

/-- Embedding of Python's `==` on values (used at source line 125 on the raw
`vstrands` lists): scalars compare by value, lists compare with lists
pointwise, tuples with tuples pointwise, dicts with dicts as finite maps
(same length and every key of the left maps to an equal value on the
right); values of different kinds are unequal. -/
def pyEq : Value → Value → Bool
  | .intV a, .intV b => a == b
  | .strV a, .strV b => a == b
  | .badV a, .badV b => a == b
  | .listV xs, .listV ys => pyEqL xs ys
  | .tupV xs, .tupV ys => pyEqL xs ys
  | .dictV a, .dictV b => a.length == b.length && pyEqDict a b
  | _, _ => false
termination_by a b => sizeOf a + sizeOf b
decreasing_by
  all_goals simp only [Value.listV.sizeOf_spec, Value.tupV.sizeOf_spec,
    Value.dictV.sizeOf_spec]
  all_goals omega

/-- Pointwise Python equality of two sequences of equal length. -/
def pyEqL : List Value → List Value → Bool
  | [], [] => true
  | x :: xs, y :: ys => pyEq x y && pyEqL xs ys
  | _, _ => false
termination_by xs ys => sizeOf xs + sizeOf ys
decreasing_by
  all_goals simp only [List.cons.sizeOf_spec]
  all_goals omega

/-- Every entry of the left association list has an equal value under the
same key in the right one. -/
def pyEqDict : List (String × Value) → List (String × Value) → Bool
  | [], _ => true
  | (k, v) :: rest, b =>
    (match h : dlookup k b with
     | some w => pyEq v w
     | none => false) && pyEqDict rest b
termination_by a b => sizeOf a + sizeOf b
decreasing_by
  · have := dlookup_sizeOf h
    simp only [List.cons.sizeOf_spec, Prod.mk.sizeOf_spec]
    omega
  · simp only [List.cons.sizeOf_spec, Prod.mk.sizeOf_spec]
    omega

end

/-- The report lines `diff_designs` can print (source lines 124-165; the
print of source line 170 is unreachable, see `fieldWalk`). -/
inductive Line where
  | newName (n1 n2 : String)
  | identical
  | noPairwiseChanges
  | nChanged (n : Nat)
  | nAdded (n : Nat)
  | nRemoved (n : Nat)
  | nCommon (n : Nat)
  | pairwiseHeader
  | extended (i : Nat) (newSide : Bool)
  | moved (i toIndex : Nat)
  | keyMismatch (i : Nat) (oldk newk : Value)
deriving DecidableEq

/-- Embedding of `itertools.zip_longest` with fill value `None` (source
lines 139 and 153): pairs of optional elements, `none` marking the
exhausted side. -/
def zipLongest : List Value → List Value → List (Option Value × Option Value)
  | [], ys => ys.map (fun y => (none, some y))
  | x :: xs, [] => (some x, none) :: zipLongest xs []
  | x :: xs, y :: ys => (some x, some y) :: zipLongest xs ys

/-- Embedding of `tuple.index` (source lines 160-161): index of the first
occurrence, `none` when the element is absent (Python raises `ValueError`
in that case). -/
def valIndex (a : Value) : List Value → Option Nat
  | [] => none
  | x :: xs => if x = a then some 0 else (valIndex a xs).map (· + 1)

/-- A parsed design document: the values of its `name` and `vstrands` keys
(source lines 123-131; `vstrands` is the list of sub-records). -/
structure Document where
  name : String
  vstrands : List Value

/-- Python unpacking of a loop element into a pair `(k, v)` (source line
163): succeeds on two-element tuples and lists and on two-character
strings; any other iterable length raises `ValueError`, a non-iterable
raises `TypeError`. -/
def unpackPair : Value → Except PyErr (Value × Value)
  | .tupV [a, b] => .ok (a, b)
  | .tupV _ => .error .valueError
  | .listV [a, b] => .ok (a, b)
  | .listV _ => .error .valueError
  | .strV s =>
    match s.data with
    | [c1, c2] => .ok (.strV (String.mk [c1]), .strV (String.mk [c2]))
    | _ => .error .valueError
  | _ => .error .typeError

/-- Python iteration over a value, as needed by `zip` (source line 163):
tuples and lists yield their elements, strings their characters, dicts
their keys; scalars are not iterable (`TypeError`). -/
def toIter : Value → Except PyErr (List Value)
  | .tupV xs => .ok xs
  | .listV xs => .ok xs
  | .strV s => .ok (s.data.map (fun c => .strV (String.mk [c])))
  | .dictV kvs => .ok (kvs.map (fun p => .strV p.1))
  | _ => .error .typeError

/-- Embedding of the field loop body (source lines 163-170) over the
zipped field positions of the two records.  On a key mismatch the source
prints the warning and `continue`s with the next position (line 166).  When
keys agree and the values differ, the source evaluates
`old_vs.get('num')` (line 170) — but `old_vs` is a canonical tuple, which
has no `get` method, so an `AttributeError` is raised and nothing is
printed for that position. -/
def fieldWalk (i : Nat) : List (Value × Value) → List Line × Option PyErr
  | [] => ([], none)
  | (o, n) :: rest =>
    match unpackPair o with
    | .error e => ([], some e)
    | .ok (ko, vo) =>
      match unpackPair n with
      | .error e => ([], some e)
      | .ok (kn, vn) =>
        if ko ≠ kn then
          let r := fieldWalk i rest
          (Line.keyMismatch i ko kn :: r.1, r.2)
        else if vn = vo then fieldWalk i rest
        else ([], some PyErr.attributeError)

/-- Embedding of `zip(old_vs, new_vs)` feeding the field loop (source line
163): iterate both records and walk the zipped positions. -/
def fieldLoop (i : Nat) (old_vs new_vs : Value) : List Line × Option PyErr :=
  match toIter old_vs with
  | .error e => ([], some e)
  | .ok os =>
    match toIter new_vs with
    | .error e => ([], some e)
    | .ok ns => fieldWalk i (os.zip ns)

/-- One iteration of the positional loop (source lines 153-170) at index
`i` with the zipped optional elements `nv` (new side) and `ov` (old side):
equal elements are skipped; a missing side prints the `extended` line; an
old element that is a member of the common set prints the `moved` line —
after first evaluating the stray statement
`old_vstrands_tups.index(new_vstrands_tups[0])` of source line 160, whose
result is discarded but which raises `ValueError` whenever the first new
record does not occur among the old ones; otherwise the field loop runs. -/
def pairStep (newT oldT : List Value) (common : Finset Value) (i : Nat)
    (nv ov : Option Value) : List Line × Option PyErr :=
  match nv, ov with
  | some n, some o =>
    if n = o then ([], none)
    else if o ∈ common then
      match newT.head? with
      | none => ([], some PyErr.indexError)
      | some n0 =>
        match valIndex n0 oldT with
        | none => ([], some PyErr.valueError)
        | some _ =>
          match valIndex o newT with
          | none => ([], some PyErr.valueError)
          | some j => ([Line.moved i j], none)
    else fieldLoop i o n
  | some _, none => ([Line.extended i true], none)
  | none, some _ => ([Line.extended i false], none)
  | none, none => ([], none)

/-- Run the positional loop from index `i` over the remaining zipped
pairs, accumulating printed lines and stopping at the first uncaught
exception. -/
def pairGo (newT oldT : List Value) (common : Finset Value) :
    Nat → List (Option Value × Option Value) → List Line × Option PyErr
  | _, [] => ([], none)
  | i, p :: rest =>
    let r := pairStep newT oldT common i p.1 p.2
    match r.2 with
    | some e => (r.1, some e)
    | none =>
      let r2 := pairGo newT oldT common (i + 1) rest
      (r.1 ++ r2.1, r2.2)

/-- The whole positional loop of source lines 153-170. -/
def pairLoop (newT oldT : List Value) (common : Finset Value) :
    List Line × Option PyErr :=
  pairGo newT oldT common 0 (zipLongest newT oldT)

/-- Embedding of `vstrands_common = new_vstrands_set & old_vstrands_set`
(source line 136). -/
def common_set (oldT newT : List Value) : Finset Value :=
  newT.toFinset ∩ oldT.toFinset

/-- Embedding of `vstrands_added = new_vstrands_set - old_vstrands_set`
(source line 137). -/
def added_set (oldT newT : List Value) : Finset Value :=
  newT.toFinset \ oldT.toFinset

/-- Embedding of `vstrands_removed = old_vstrands_set - new_vstrands_set`
(source line 138). -/
def removed_set (oldT newT : List Value) : Finset Value :=
  oldT.toFinset \ newT.toFinset

/-- The name line printed by source lines 123-124 when the two documents
are named differently. -/
def nameLines (d1 d2 : Document) : List Line :=
  if d1.name ≠ d2.name then [Line.newName d1.name d2.name] else []

/-- Embedding of `diff_designs` (source lines 119-170).  The result is the
list of printed lines together with the uncaught exception, if one was
raised.  `canonL` is `list_to_tups` applied to a list, kept element-wise
(source lines 129 and 132 canonicalize `design1['vstrands']` before
`design2['vstrands']`, so an old-side error surfaces first); the sets of
lines 130-138 are `Finset`s of canonical values (all hashable, so `set()`
raises nothing); `changed_mask`/`n_changed` of lines 139-141 is the count
of unequal zipped pairs. -/
def diff_designs (d1 d2 : Document) : List Line × Option PyErr :=
  let nl := nameLines d1 d2
  if pyEq (.listV d1.vstrands) (.listV d2.vstrands) then
    (nl ++ [Line.identical], none)
  else
    match canonL d1.vstrands with
    | .error e => (nl, some e)
    | .ok oldT =>
      match canonL d2.vstrands with
      | .error e => (nl, some e)
      | .ok newT =>
        let n_changed := (zipLongest newT oldT).countP (fun p => p.1 != p.2)
        if n_changed = 0 then (nl ++ [Line.noPairwiseChanges], none)
        else
          let r := pairLoop newT oldT (common_set oldT newT)
          (nl ++ [Line.nChanged n_changed, Line.nAdded (added_set oldT newT).card,
                  Line.nRemoved (removed_set oldT newT).card,
                  Line.nCommon (common_set oldT newT).card,
                  Line.pairwiseHeader] ++ r.1, r.2)

/-- Modelled from the spec: the variant of the field loop that, on a key
mismatch, emits the `KeyMismatch` finding and then stops comparing all
further field positions of the record pair (spec §4.4); all other branches
are those of `fieldWalk`.  Used to state the claim that the source behaves
this way. -/
def fieldWalkStop (i : Nat) : List (Value × Value) → List Line × Option PyErr
  | [] => ([], none)
  | (o, n) :: rest =>
    match unpackPair o with
    | .error e => ([], some e)
    | .ok (ko, vo) =>
      match unpackPair n with
      | .error e => ([], some e)
      | .ok (kn, vn) =>
        if ko ≠ kn then ([Line.keyMismatch i ko kn], none)
        else if vn = vo then fieldWalkStop i rest
        else ([], some PyErr.attributeError)

/-- The claim that the field comparison stops at the first key mismatch:
the source's field loop coincides with `fieldWalkStop` on every input. -/
def claimC3Statement : Prop :=
  ∀ (i : Nat) (ps : List (Value × Value)), fieldWalk i ps = fieldWalkStop i ps

/-- The claim that canonically identical record sequences (including
order) make the report consist of the identical line alone after the
optional name line, with no set, positional or field output. -/
def claimC6Statement : Prop :=
  ∀ d1 d2 : Document, canonL d1.vstrands = canonL d2.vstrands →
    diff_designs d1 d2 = (nameLines d1 d2 ++ [Line.identical], none)

/-- A zipped field position is a pair of unpackable `(key, value)` pairs
whose keys differ or whose values agree (the positions that the field loop
can pass without reaching the crashing print of source line 170). -/
def benignPos (p : Value × Value) : Bool :=
  match unpackPair p.1, unpackPair p.2 with
  | .ok (ko, vo), .ok (kn, vn) => ko != kn || vn == vo
  | _, _ => false

/-- The `KeyMismatch` line a zipped field position contributes, if any. -/
def mismatchLine (i : Nat) (p : Value × Value) : Option Line :=
  match unpackPair p.1, unpackPair p.2 with
  | .ok (ko, _), .ok (kn, _) =>
    if ko ≠ kn then some (Line.keyMismatch i ko kn) else none
  | _, _ => none

/-- The comparison engine with the caller's two documents threaded as
explicit state: `diff_designs` (and the `list_to_tups` calls inside it)
only reads the documents — it indexes, iterates, compares, hashes and
sorts into fresh collections (`sorted`, `set`, `tuple` all allocate new
objects) — so the translation performs `get`s and no state update. -/
def diff_designs_prog : StateM (Document × Document) (List Line × Option PyErr) := do
  let d1 ← (fun (s : Document × Document) => s.1) <$> get
  let d2 ← (fun (s : Document × Document) => s.2) <$> get
  pure (diff_designs d1 d2)

/-- Zipping only consumes the first `min` positions of either list. -/
theorem zip_eq_zip_take : ∀ os ns : List Value,
    os.zip ns = (os.take (min os.length ns.length)).zip
      (ns.take (min os.length ns.length)) := by
  intro os
  induction os with
  | nil => intro ns; simp
  | cons o os ih =>
    intro ns
    cases ns with
    | nil => simp
    | cons n ns =>
      simp only [List.length_cons, List.zip_cons_cons]
      rw [Nat.succ_min_succ]
      simp only [List.take_succ_cons, List.zip_cons_cons]
      rw [← ih ns]

/-- C10: the field comparison of a record pair walks only the first
`min(len(old_fields), len(new_fields))` positions — the `zip` of source
line 163 truncates to the shorter record, so every field of the longer
record beyond that length is silently skipped: it influences neither the
emitted lines nor the raised error, being neither reported as a field
difference nor flagged as a key mismatch. -/
theorem fieldLoop_truncates_to_min (i : Nat) (os ns : List Value) :
    fieldLoop i (.tupV os) (.tupV ns) =
      fieldLoop i (.tupV (os.take (min os.length ns.length)))
        (.tupV (ns.take (min os.length ns.length))) := by
  simp only [fieldLoop, toIter]
  rw [← zip_eq_zip_take]

/-- C4: the set classification of source lines 130-138 partitions the two
canonical record sequences: added and removed are disjoint, both are
disjoint from common, the old set is removed ∪ common and the new set is
added ∪ common. -/
theorem set_classification_partitions (oldT newT : List Value) :
    added_set oldT newT ∩ removed_set oldT newT = ∅ ∧
    added_set oldT newT ∩ common_set oldT newT = ∅ ∧
    removed_set oldT newT ∩ common_set oldT newT = ∅ ∧
    oldT.toFinset = removed_set oldT newT ∪ common_set oldT newT ∧
    newT.toFinset = added_set oldT newT ∪ common_set oldT newT := by
  refine ⟨?_, ?_, ?_, ?_, ?_⟩ <;>
  · ext x
    simp only [added_set, removed_set, common_set, Finset.mem_inter,
      Finset.mem_sdiff, Finset.mem_union, Finset.not_mem_empty]
    tauto

/-- C9: the comparison never mutates the caller's documents — running the
state-threaded engine returns the report of `diff_designs` and leaves the
state (the pair of input documents, with their names, record sequences and
all nested values) exactly as it was. -/
theorem diff_designs_preserves_inputs (s : Document × Document) :
    diff_designs_prog.run s = (diff_designs s.1 s.2, s) := rfl

/-- C6 (amended): when the two `vstrands` values are equal as raw Python
values (source line 125), the report is the optional name line followed by
exactly the identical line — no set counts, no positional lines and no
field lines — whether or not the two documents' names differ. -/
theorem diff_designs_identical_of_pyEq (d1 d2 : Document)
    (h : pyEq (.listV d1.vstrands) (.listV d2.vstrands) = true) :
    diff_designs d1 d2 = (nameLines d1 d2 ++ [Line.identical], none) := by
  simp [diff_designs, h]

/-- Documents with differing names and raw-equal record sequences, used to
witness `diff_designs_identical_of_pyEq`. -/
def identOld : Document := ⟨"a", [.intV 1, .dictV [("k", .intV 2)]]⟩

/-- See `identOld`. -/
def identNew : Document := ⟨"b", [.intV 1, .dictV [("k", .intV 2)]]⟩

/-- Witness for `diff_designs_identical_of_pyEq` at a concrete input pair
whose names differ. -/
theorem diff_designs_identical_of_pyEq_witness :
    pyEq (.listV identOld.vstrands) (.listV identNew.vstrands) = true ∧
    diff_designs identOld identNew =
      (nameLines identOld identNew ++ [Line.identical], none) :=
  ⟨by simp +decide [identOld, identNew, pyEq, pyEqL, pyEqDict, dlookup],
   diff_designs_identical_of_pyEq identOld identNew
     (by simp +decide [identOld, identNew, pyEq, pyEqL, pyEqDict, dlookup])⟩

/-- A document whose single record nests a mapping under key `k`. -/
def c6old : Document := ⟨"x", [.dictV [("k", .dictV [("a", .intV 1)])]]⟩

/-- A document whose single record nests, under the same key `k`, the
sequence-of-pairs mirror of `c6old`'s nested mapping: canonically
identical to `c6old`'s record but not equal to it as a raw value. -/
def c6new : Document := ⟨"x", [.dictV [("k", .listV [.listV [.strV "a", .intV 1]])]]⟩

/-- C6 (counterexample): canonical identity of the record sequences does
not make the report consist of the identical line — `c6old`/`c6new`
canonicalize identically, yet the raw-equality test of source line 125
fails, so the engine continues and prints the no-pairwise-changes line
instead of the identical line. -/
theorem claimC6_false : ¬ claimC6Statement := by
  intro h
  have h1 : canonL c6old.vstrands = canonL c6new.vstrands := by
    simp +decide [c6old, c6new, canonL, list_to_tups, canonKVs, sortKVs,
      List.insertionSort, List.orderedInsert]
  have h2 := h c6old c6new h1
  have h3 : diff_designs c6old c6new = ([Line.noPairwiseChanges], none) := by
    simp +decide [c6old, c6new, diff_designs, nameLines, pyEq, pyEqL, pyEqDict,
      dlookup, canonL, list_to_tups, canonKVs, sortKVs, List.insertionSort,
      List.orderedInsert, zipLongest]
  rw [h3] at h2
  simp [nameLines, c6old, c6new] at h2

/-- Old record sequence for the moved-record crash: records A, B. -/
def movedOldDoc : Document :=
  ⟨"x", [.dictV [("num", .intV 0)], .dictV [("num", .intV 1)]]⟩

/-- New record sequence for the moved-record crash: records C, B, A — A
moved to index 2 unchanged, C new at index 0. -/
def movedNewDoc : Document :=
  ⟨"x", [.dictV [("num", .intV 2)], .dictV [("num", .intV 1)],
         .dictV [("num", .intV 0)]]⟩

/-- Canonical image of record A (`{"num": 0}`). -/
def recA : Value := .tupV [.tupV [.strV "num", .intV 0]]

/-- Canonical image of record B (`{"num": 1}`). -/
def recB : Value := .tupV [.tupV [.strV "num", .intV 1]]

/-- Canonical image of record C (`{"num": 2}`). -/
def recC : Value := .tupV [.tupV [.strV "num", .intV 2]]

/-- C1: the two documents canonicalize to [A, B] and [C, B, A]; at index 0
the old record A differs from the new record C and is a member of the
common set, so the claim expects the Moved outcome with to_index 2 (first
occurrence of A in the new sequence) and no failure; the positional loop
instead evaluates the stray `old_vstrands_tups.index(new_vstrands_tups[0])`
of source line 160 — C does not occur among the old records — and dies with
`ValueError`, printing no moved line. -/
theorem moved_record_lookup_raises :
    canonL movedOldDoc.vstrands = .ok [recA, recB] ∧
    canonL movedNewDoc.vstrands = .ok [recC, recB, recA] ∧
    pairLoop [recC, recB, recA] [recA, recB]
      (common_set [recA, recB] [recC, recB, recA]) =
      ([], some PyErr.valueError) :=
  ⟨by simp +decide [movedOldDoc, recA, recB, canonL, canonKVs, list_to_tups,
      sortKVs, List.insertionSort, List.orderedInsert],
   by simp +decide [movedNewDoc, recA, recB, recC, canonL, canonKVs,
      list_to_tups, sortKVs, List.insertionSort, List.orderedInsert],
   by decide⟩

/-- Canonical image of the record `{id: 1, x: 5, y: "a"}` of the spec's
field-level example. -/
def modOldRec : Value :=
  .tupV [.tupV [.strV "id", .intV 1], .tupV [.strV "x", .intV 5],
         .tupV [.strV "y", .strV "a"]]

/-- Canonical image of the record `{id: 1, x: 5, y: "b"}`. -/
def modNewRec : Value :=
  .tupV [.tupV [.strV "id", .intV 1], .tupV [.strV "x", .intV 5],
         .tupV [.strV "y", .strV "b"]]

/-- C2: on the spec's own field-level example the claim expects exactly one
field finding (field y, old "a", new "b") and no failure; the field loop on
the two canonical records passes the agreeing fields id and x, reaches the
differing field y and evaluates `old_vs.get('num')` (source line 170) on a
canonical tuple, which has no `get` method, so the comparison dies with
`AttributeError` and no field line at all is printed. -/
theorem field_diff_print_raises :
    list_to_tups (.dictV [("id", .intV 1), ("x", .intV 5), ("y", .strV "a")]) =
      .ok modOldRec ∧
    list_to_tups (.dictV [("id", .intV 1), ("x", .intV 5), ("y", .strV "b")]) =
      .ok modNewRec ∧
    fieldLoop 0 modOldRec modNewRec = ([], some PyErr.attributeError) :=
  ⟨by simp +decide [modOldRec, list_to_tups, canonKVs, sortKVs,
      List.insertionSort, List.orderedInsert],
   by simp +decide [modNewRec, list_to_tups, canonKVs, sortKVs,
      List.insertionSort, List.orderedInsert],
   by decide⟩

/-- Concrete zipped field positions with two successive key mismatches. -/
def c3ps : List (Value × Value) :=
  [(.tupV [.strV "a", .intV 1], .tupV [.strV "c", .intV 1]),
   (.tupV [.strV "b", .intV 2], .tupV [.strV "d", .intV 2])]

/-- C3 (counterexample): the field loop does not stop at the first key
mismatch — on `c3ps` the source's loop (`continue` at line 166) emits a
`KeyMismatch` line for both positions, while the stop-at-first-mismatch
reading emits only the first. -/
theorem claimC3_false : ¬ claimC3Statement := by
  intro h
  exact absurd (h 0 c3ps) (by decide)

/-- C3 (amended): a key mismatch at a field position emits its
`KeyMismatch` finding non-fatally and the loop continues with the
remaining positions — over any zipped positions that are each either a
key mismatch or an agreeing value (so that the crashing print of source
line 170 is never reached), the output is exactly one `KeyMismatch` line
per mismatched position, in order, and no error. -/
theorem fieldWalk_continues_after_mismatch (i : Nat) (ps : List (Value × Value))
    (h : ps.all benignPos = true) :
    fieldWalk i ps = (ps.filterMap (mismatchLine i), none) := by
  induction ps with
  | nil => simp [fieldWalk]
  | cons p rest ih =>
    simp only [List.all_cons, Bool.and_eq_true] at h
    obtain ⟨hp, hrest⟩ := h
    obtain ⟨o, n⟩ := p
    cases u1 : unpackPair o with
    | error e => simp [benignPos, u1] at hp
    | ok kv1 =>
      cases u2 : unpackPair n with
      | error e => simp [benignPos, u1, u2] at hp
      | ok kv2 =>
        obtain ⟨ko, vo⟩ := kv1
        obtain ⟨kn, vn⟩ := kv2
        simp only [benignPos, u1, u2, Bool.or_eq_true, bne_iff_ne, beq_iff_eq] at hp
        by_cases hk : ko = kn
        · have hv : vn = vo := by
            cases hp with
            | inl hne => exact absurd hk hne
            | inr hv => exact hv
          subst hk
          subst hv
          simp only [fieldWalk, u1, u2, List.filterMap_cons, mismatchLine]
          simp [ih hrest]
        · simp only [fieldWalk, u1, u2, List.filterMap_cons, mismatchLine]
          simp [hk, ih hrest]

/-- Benign zipped positions witnessing `fieldWalk_continues_after_mismatch`:
two key mismatches around an agreeing position. -/
def c3benign : List (Value × Value) :=
  [(.tupV [.strV "a", .intV 1], .tupV [.strV "c", .intV 1]),
   (.tupV [.strV "e", .intV 3], .tupV [.strV "e", .intV 3]),
   (.tupV [.strV "b", .intV 2], .tupV [.strV "d", .intV 2])]

/-- Witness for `fieldWalk_continues_after_mismatch` at `c3benign`. -/
theorem fieldWalk_continues_after_mismatch_witness :
    c3benign.all benignPos = true ∧
    fieldWalk 0 c3benign = (c3benign.filterMap (mismatchLine 0), none) :=
  ⟨by decide, fieldWalk_continues_after_mismatch 0 c3benign (by decide)⟩

/-- Lists of hashable values are exactly the pointwise hashable ones. -/
theorem hashableL_iff (xs : List Value) :
    hashableL xs = true ↔ ∀ x ∈ xs, hashableV x = true := by
  induction xs with
  | nil => simp [hashableL]
  | cons x xs ih => simp [hashableL, ih]

/-- A successful `canonL` returns hashable values, given that each element
canonicalizes to a hashable value. -/
theorem canonL_ok_hashable :
    ∀ {xs : List Value} {cs : List Value},
      (∀ x ∈ xs, ∀ c, list_to_tups x = .ok c → hashableV c = true) →
      canonL xs = .ok cs → hashableL cs = true := by
  intro xs
  induction xs with
  | nil =>
    intro cs _ h
    simp only [canonL] at h
    cases h
    rfl
  | cons x xs ih =>
    intro cs hmem h
    cases h1 : list_to_tups x with
    | error e => simp [canonL, h1] at h
    | ok c =>
      cases h2 : canonL xs with
      | error e => simp [canonL, h1, h2] at h
      | ok cs' =>
        simp only [canonL, h1, h2] at h
        cases h
        have hc := hmem x (by simp) c h1
        have hcs := ih (fun y hy => hmem y (by simp [hy])) h2
        simp [hashableL, hc, hcs]

/-- A successful `canonKVs` returns hashable pair-tuples, given that each
mapped value canonicalizes to a hashable value. -/
theorem canonKVs_ok_hashable :
    ∀ {l : List (String × Value)} {cs : List Value},
      (∀ p ∈ l, ∀ c, list_to_tups (Prod.snd p) = .ok c → hashableV c = true) →
      canonKVs l = .ok cs → hashableL cs = true := by
  intro l
  induction l with
  | nil =>
    intro cs _ h
    simp only [canonKVs] at h
    cases h
    rfl
  | cons p l ih =>
    intro cs hmem h
    obtain ⟨k, v⟩ := p
    cases h1 : list_to_tups v with
    | error e => simp [canonKVs, h1] at h
    | ok c =>
      cases h2 : canonKVs l with
      | error e => simp [canonKVs, h1, h2] at h
      | ok cs' =>
        simp only [canonKVs, h1, h2] at h
        cases h
        have hc := hmem (k, v) (by simp) c h1
        have hcs := ih (fun q hq => hmem q (by simp [hq])) h2
        simp [hashableL, hashableV, hc, hcs]

/-- Whatever `list_to_tups` returns successfully is hashable: tuples of
hashables all the way down. -/
theorem list_to_tups_ok_hashable :
    ∀ v : Value, ∀ c, list_to_tups v = .ok c → hashableV c = true := by
  intro v
  induction v using Value.inductionOn with
  | hint n =>
    intro c h
    simp only [list_to_tups] at h
    cases h
    rfl
  | hstr s =>
    intro c h
    simp only [list_to_tups] at h
    cases h
    rfl
  | hbad n =>
    intro c h
    simp [list_to_tups] at h
  | htup xs ih =>
    intro c h
    cases hh : hashableL xs with
    | false => simp [list_to_tups, hh] at h
    | true =>
      simp only [list_to_tups, hh, if_true] at h
      cases h
      exact hh
  | hlist xs ih =>
    intro c h
    cases h1 : canonL xs with
    | error e => simp [list_to_tups, h1] at h
    | ok cs =>
      simp only [list_to_tups, h1] at h
      cases h
      exact canonL_ok_hashable ih h1
  | hdict kvs ih =>
    intro c h
    cases h1 : canonKVs (sortKVs kvs) with
    | error e => simp [list_to_tups, h1] at h
    | ok cs =>
      simp only [list_to_tups, h1] at h
      cases h
      have ih' : ∀ p ∈ sortKVs kvs, ∀ c, list_to_tups (Prod.snd p) = .ok c →
          hashableV c = true :=
        fun p hp => ih p ((List.perm_insertionSort _ kvs).subset hp)
      exact canonKVs_ok_hashable ih' h1

/-- A hashable value is a fixed point of `list_to_tups`: it reaches the
source's `else` branch (or is a hashable tuple) and is returned unchanged. -/
theorem list_to_tups_fixed_of_hashable :
    ∀ c : Value, hashableV c = true → list_to_tups c = .ok c := by
  intro c h
  cases c with
  | intV n => simp [list_to_tups]
  | strV s => simp [list_to_tups]
  | badV n => simp [hashableV] at h
  | listV xs => simp [hashableV] at h
  | dictV kvs => simp [hashableV] at h
  | tupV xs => simp [list_to_tups, hashableV] at h ⊢; simp [h]

/-- C5: canonicalization is idempotent — composing `list_to_tups` with
itself (through `Except`) is `list_to_tups`; in particular a canonical
value (any successful result) is returned unchanged by a second
application. -/
theorem canonicalize_idempotent (v : Value) :
    Except.bind (list_to_tups v) list_to_tups = list_to_tups v := by
  cases h : list_to_tups v with
  | error e => rfl
  | ok c =>
    show list_to_tups c = Except.ok c
    exact list_to_tups_fixed_of_hashable c (list_to_tups_ok_hashable v c h)

/-- `any` is invariant under permutation. -/
theorem perm_any_eq {α} (f : α → Bool) {l1 l2 : List α} (h : l1.Perm l2) :
    l1.any f = l2.any f := by
  rw [Bool.eq_iff_iff]
  simp only [List.any_eq_true]
  constructor
  · rintro ⟨x, hx, hf⟩
    exact ⟨x, h.mem_iff.mp hx, hf⟩
  · rintro ⟨x, hx, hf⟩
    exact ⟨x, h.mem_iff.mpr hx, hf⟩

/-- `all` is invariant under permutation. -/
theorem perm_all_eq {α} (f : α → Bool) {l1 l2 : List α} (h : l1.Perm l2) :
    l1.all f = l2.all f := by
  rw [Bool.eq_iff_iff]
  simp only [List.all_eq_true]
  constructor
  · intro ha x hx
    exact ha x (h.mem_iff.mpr hx)
  · intro ha x hx
    exact ha x (h.mem_iff.mp hx)

/-- `hasBadKV` as an `any` over the mapped values. -/
theorem hasBadKV_eq_any (l : List (String × Value)) :
    hasBadKV l = l.any (fun p => hasBadV p.2) := by
  induction l with
  | nil => rfl
  | cons p rest ih => simp [hasBadKV, ih]

/-- `tupleFreeKV` as an `all` over the mapped values. -/
theorem tupleFreeKV_eq_all (l : List (String × Value)) :
    tupleFreeKV l = l.all (fun p => tupleFreeV p.2) := by
  induction l with
  | nil => rfl
  | cons p rest ih => simp [tupleFreeKV, ih]

/-- On a tuple-free list, `canonL` fails exactly when some element contains
an unhashable scalar (given the same characterization element-wise). -/
theorem canonL_isOk_iff :
    ∀ {xs : List Value},
      (∀ x ∈ xs, tupleFreeV x = true →
        ((list_to_tups x).isOk = false ↔ hasBadV x = true)) →
      tupleFreeL xs = true →
      ((canonL xs).isOk = false ↔ hasBadL xs = true) := by
  intro xs
  induction xs with
  | nil =>
    intro _ _
    simp [canonL, hasBadL, Except.isOk, Except.toBool]
  | cons x xs ih =>
    intro hmem hf
    simp only [tupleFreeL, Bool.and_eq_true] at hf
    have hx := hmem x (by simp) hf.1
    have hxs := ih (fun y hy => hmem y (by simp [hy])) hf.2
    cases h1 : list_to_tups x with
    | error e =>
      rw [h1] at hx
      simp only [Except.isOk, Except.toBool] at hx
      simp [canonL, h1, hasBadL, hx.mp trivial, Except.isOk, Except.toBool]
    | ok c =>
      rw [h1] at hx
      simp only [Except.isOk, Except.toBool] at hx
      have hxbad : hasBadV x = false := by
        cases hb : hasBadV x with
        | false => rfl
        | true => exact absurd (hx.mpr hb) (by simp)
      cases h2 : canonL xs with
      | error e2 =>
        rw [h2] at hxs
        simp only [Except.isOk, Except.toBool] at hxs
        simp [canonL, h1, h2, hasBadL, hxbad, hxs.mp trivial, Except.isOk, Except.toBool]
      | ok cs =>
        rw [h2] at hxs
        simp only [Except.isOk, Except.toBool] at hxs
        have hxsbad : hasBadL xs = false := by
          cases hb : hasBadL xs with
          | false => rfl
          | true => exact absurd (hxs.mpr hb) (by simp)
        simp [canonL, h1, h2, hasBadL, hxbad, hxsbad, Except.isOk, Except.toBool]

/-- On a tuple-free association list, `canonKVs` fails exactly when some
mapped value contains an unhashable scalar. -/
theorem canonKVs_isOk_iff :
    ∀ {l : List (String × Value)},
      (∀ p ∈ l, tupleFreeV (Prod.snd p) = true →
        ((list_to_tups (Prod.snd p)).isOk = false ↔ hasBadV (Prod.snd p) = true)) →
      tupleFreeKV l = true →
      ((canonKVs l).isOk = false ↔ hasBadKV l = true) := by
  intro l
  induction l with
  | nil =>
    intro _ _
    simp [canonKVs, hasBadKV, Except.isOk, Except.toBool]
  | cons p rest ih =>
    intro hmem hf
    obtain ⟨k, v⟩ := p
    simp only [tupleFreeKV, Bool.and_eq_true] at hf
    have hx := hmem (k, v) (by simp) hf.1
    have hxs := ih (fun q hq => hmem q (by simp [hq])) hf.2
    cases h1 : list_to_tups v with
    | error e =>
      rw [h1] at hx
      simp only [Except.isOk, Except.toBool] at hx
      simp [canonKVs, h1, hasBadKV, hx.mp trivial, Except.isOk, Except.toBool]
    | ok c =>
      rw [h1] at hx
      simp only [Except.isOk, Except.toBool] at hx
      have hxbad : hasBadV v = false := by
        cases hb : hasBadV v with
        | false => rfl
        | true => exact absurd (hx.mpr hb) (by simp)
      cases h2 : canonKVs rest with
      | error e2 =>
        rw [h2] at hxs
        simp only [Except.isOk, Except.toBool] at hxs
        simp [canonKVs, h1, h2, hasBadKV, hxbad, hxs.mp trivial, Except.isOk, Except.toBool]
      | ok cs =>
        rw [h2] at hxs
        simp only [Except.isOk, Except.toBool] at hxs
        have hxsbad : hasBadKV rest = false := by
          cases hb : hasBadKV rest with
          | false => rfl
          | true => exact absurd (hxs.mpr hb) (by simp)
        simp [canonKVs, h1, h2, hasBadKV, hxbad, hxsbad, Except.isOk, Except.toBool]

/-- C8: on tuple-free input (scalars, sequences and mappings only — the
shape the document loader produces), canonicalization raises an error,
propagated to the caller through the `Except`, if and only if the input
contains an unhashable scalar; composed of hashable scalars, sequences and
mappings only, it never fails. -/
theorem canonicalize_fails_iff_unhashable (v : Value)
    (hf : tupleFreeV v = true) :
    (list_to_tups v).isOk = false ↔ hasBadV v = true := by
  induction v using Value.inductionOn with
  | hint n => simp [list_to_tups, hasBadV, Except.isOk, Except.toBool]
  | hstr s => simp [list_to_tups, hasBadV, Except.isOk, Except.toBool]
  | hbad n => simp [list_to_tups, hasBadV, Except.isOk, Except.toBool]
  | htup xs ih => simp [tupleFreeV] at hf
  | hlist xs ih =>
    simp only [tupleFreeV] at hf
    have h := canonL_isOk_iff ih hf
    simp only [hasBadV]
    rw [← h]
    cases h1 : canonL xs with
    | error e => simp [list_to_tups, h1, Except.isOk, Except.toBool]
    | ok cs => simp [list_to_tups, h1, Except.isOk, Except.toBool]
  | hdict kvs ih =>
    simp only [tupleFreeV] at hf
    have hperm : (sortKVs kvs).Perm kvs :=
      List.perm_insertionSort (fun a b : String × Value => a.1 ≤ b.1) kvs
    have ih' : ∀ p ∈ sortKVs kvs, tupleFreeV (Prod.snd p) = true →
        ((list_to_tups (Prod.snd p)).isOk = false ↔
          hasBadV (Prod.snd p) = true) :=
      fun p hp => ih p (hperm.subset hp)
    have hf' : tupleFreeKV (sortKVs kvs) = true := by
      rw [tupleFreeKV_eq_all] at hf ⊢
      rw [perm_all_eq _ hperm]
      exact hf
    have h := canonKVs_isOk_iff ih' hf'
    have hbadperm : hasBadKV (sortKVs kvs) = hasBadKV kvs := by
      rw [hasBadKV_eq_any, hasBadKV_eq_any]
      exact perm_any_eq _ hperm
    simp only [hasBadV]
    rw [← hbadperm, ← h]
    cases h1 : canonKVs (sortKVs kvs) with
    | error e => simp [list_to_tups, h1, Except.isOk, Except.toBool]
    | ok cs => simp [list_to_tups, h1, Except.isOk, Except.toBool]

/-- Witness for `canonicalize_fails_iff_unhashable` at the concrete input
`[{"k": <unhashable>}, 1]`. -/
theorem canonicalize_fails_iff_unhashable_witness :
    tupleFreeV (.listV [.dictV [("k", .badV 0)], .intV 1]) = true ∧
    ((list_to_tups (.listV [.dictV [("k", .badV 0)], .intV 1])).isOk = false ↔
      hasBadV (.listV [.dictV [("k", .badV 0)], .intV 1]) = true) :=
  ⟨by decide, canonicalize_fails_iff_unhashable _ (by decide)⟩

instance : IsTotal (String × Value) (fun a b => a.1 ≤ b.1) :=
  ⟨fun a b => le_total a.1 b.1⟩

instance : IsTrans (String × Value) (fun a b => a.1 ≤ b.1) :=
  ⟨fun _ _ _ h1 h2 => le_trans h1 h2⟩

/-- Two key-sorted association lists that are permutations of each other
and have pairwise-distinct keys are equal. -/
theorem sorted_perm_eq_of_nodup_keys :
    ∀ (l1 l2 : List (String × Value)), l1.Perm l2 →
      l1.Sorted (fun a b => a.1 ≤ b.1) → l2.Sorted (fun a b => a.1 ≤ b.1) →
      (l1.map Prod.fst).Nodup → l1 = l2 := by
  intro l1
  induction l1 with
  | nil =>
    intro l2 hp _ _ _
    exact (List.perm_nil.mp hp.symm).symm
  | cons a t1 ih =>
    intro l2 hp hs1 hs2 hnd
    cases l2 with
    | nil => exact absurd (List.perm_nil.mp hp) (by simp)
    | cons b t2 =>
      obtain ⟨hs1a, hs1t⟩ := List.sorted_cons.mp hs1
      obtain ⟨hs2b, hs2t⟩ := List.sorted_cons.mp hs2
      simp only [List.map_cons, List.nodup_cons] at hnd
      obtain ⟨hnda, hndt⟩ := hnd
      have hab : a = b := by
        have hbmem : b ∈ a :: t1 := hp.mem_iff.mpr (by simp)
        rcases List.mem_cons.mp hbmem with hba | hbt1
        · exact hba.symm
        · have hamem : a ∈ b :: t2 := hp.mem_iff.mp (by simp)
          rcases List.mem_cons.mp hamem with hab | hat2
          · exact hab
          · have h1 : a.1 ≤ b.1 := hs1a b hbt1
            have h2 : b.1 ≤ a.1 := hs2b a hat2
            have heq : a.1 = b.1 := le_antisymm h1 h2
            exact absurd (List.mem_map.mpr ⟨b, hbt1, heq.symm⟩) hnda
      subst hab
      have := ih t2 hp.cons_inv hs1t hs2t hndt
      rw [this]

/-- Sorting by key is invariant under permutation of an association list
with pairwise-distinct keys. -/
theorem sortKVs_eq_of_perm {m1 m2 : List (String × Value)} (hp : m1.Perm m2)
    (hnd : (m1.map Prod.fst).Nodup) : sortKVs m1 = sortKVs m2 := by
  have p1 : (sortKVs m1).Perm m1 := List.perm_insertionSort _ m1
  have p2 : (sortKVs m2).Perm m2 := List.perm_insertionSort _ m2
  apply sorted_perm_eq_of_nodup_keys
  · exact p1.trans (hp.trans p2.symm)
  · exact List.sorted_insertionSort _ m1
  · exact List.sorted_insertionSort _ m2
  · exact ((p1.map Prod.fst).nodup_iff).mpr hnd

/-- C7: mapping key order never causes canonical inequality — two mappings
holding the same key/value pairs in different insertion order (as a
genuine dict: pairwise-distinct keys) canonicalize identically, because
`list_to_tups` sorts the items by key before recursing. -/
theorem canonicalize_mapping_order_invariant (m1 m2 : List (String × Value))
    (hp : m1.Perm m2) (hnd : (m1.map Prod.fst).Nodup) :
    list_to_tups (.dictV m1) = list_to_tups (.dictV m2) := by
  simp only [list_to_tups]
  rw [sortKVs_eq_of_perm hp hnd]

/-- Witness for `canonicalize_mapping_order_invariant` on the two-entry
mapping `{"b": 1, "a": "x"}` against its reordering. -/
theorem canonicalize_mapping_order_invariant_witness :
    ([("b", Value.intV 1), ("a", Value.strV "x")] :
        List (String × Value)).Perm
      [("a", Value.strV "x"), ("b", Value.intV 1)] ∧
    (([("b", Value.intV 1), ("a", Value.strV "x")] :
        List (String × Value)).map Prod.fst).Nodup ∧
    list_to_tups (.dictV [("b", Value.intV 1), ("a", Value.strV "x")]) =
      list_to_tups (.dictV [("a", Value.strV "x"), ("b", Value.intV 1)]) :=
  ⟨by decide, by decide,
   canonicalize_mapping_order_invariant _ _ (by decide) (by decide)⟩
